import Mathlib

/-!
Verification development for the pdf-to-anki text-extraction pipeline.

Strings are modelled as `List Char`.  The Python functions of
`pdf_processor.py` and `llm_processor.py` are embedded as executable Lean
functions below; each definition's doc comment names the Python source it
translates.  Python whitespace (for `str.strip()` and the regex class `\s`)
is modelled by the six ASCII whitespace characters, which cover every input
considered here.
-/

/-- Python whitespace test, restricted to the ASCII whitespace characters
(space, tab, newline, carriage return, vertical tab, form feed). -/
def isWS (c : Char) : Bool :=
  c = ' ' || c = '\t' || c = '\n' || c = '\x0d' || c = '\x0b' || c = '\x0c'

/-- Membership in the regex character class `[\s:]` used by the Q/A marker
patterns of `PDFProcessor.parse_structured_qa`. -/
def isWSColon (c : Char) : Bool :=
  isWS c || c = ':'

/-- Case-insensitive character comparison, modelling `re.IGNORECASE`. -/
def ciEq (c d : Char) : Bool :=
  c.toLower = d.toLower

/-- Does `c` match the pattern letter `Q` case-insensitively? -/
def isQCi (c : Char) : Bool :=
  ciEq c 'q'

/-- Does `c` match the pattern letter `A` case-insensitively? -/
def isACi (c : Char) : Bool :=
  ciEq c 'a'

/-- Python `str.strip()`: drop whitespace from both ends. -/
def pyStrip (s : List Char) : List Char :=
  ((s.dropWhile isWS).reverse.dropWhile isWS).reverse

/-- Right strip: drop trailing whitespace. -/
def rstripWS (l : List Char) : List Char :=
  (l.reverse.dropWhile isWS).reverse

/-- Python `str.split('\n')`: split at every newline, keeping empty pieces
(so `"".split('\n') = [""]`). -/
def splitNl : List Char → List (List Char)
  | [] => [[]]
  | c :: rest =>
    if c = '\n' then [] :: splitNl rest
    else
      match splitNl rest with
      | [] => [[c]]
      | l :: ls => (c :: l) :: ls

/-- Python substring test `pat in s`. -/
def pyIn (pat : List Char) : List Char → Bool
  | [] => pat.isEmpty
  | c :: rest => pat.isPrefixOf (c :: rest) || pyIn pat rest

/-- Fuel-driven worker for `pyReplace`; the fuel always suffices because each
step consumes at least one character of the input. -/
def pyReplaceF (pat rep : List Char) : Nat → List Char → List Char
  | 0, s => s
  | _ + 1, [] => []
  | f + 1, c :: rest =>
    if pat.isPrefixOf (c :: rest) then
      rep ++ pyReplaceF pat rep f (List.drop (pat.length - 1) rest)
    else
      c :: pyReplaceF pat rep f rest

/-- Python `str.replace(pat, rep)` for a non-empty `pat`: replace every
non-overlapping occurrence, scanning left to right. -/
def pyReplace (pat rep s : List Char) : List Char :=
  pyReplaceF pat rep s.length s

/-- Python `'\n'.join(lines)`. -/
def joinLines (ls : List (List Char)) : List Char :=
  List.intercalate ['\n'] ls

/-- Left-biased choice with backtracking, the spine of the regex engine. -/
def palt (a : Option α) (b : Unit → Option α) : Option α :=
  match a with
  | some v => some v
  | none => b ()

/-- Match a literal pattern case-insensitively at the head of the input,
returning the rest of the input on success. -/
def matchCI : List Char → List Char → Option (List Char)
  | [], s => some s
  | _ :: _, [] => none
  | p :: ps, c :: s => if ciEq c p then matchCI ps s else none

/-- Regex `(?:pat)?` (greedy): try the continuation after consuming `pat`
first, then without consuming it. -/
def tryOpt (pat : List Char) (k : List Char → Option α) (s : List Char) : Option α :=
  match matchCI pat s with
  | some r => palt (k r) (fun _ => k s)
  | none => k s

/-- Regex `[p]*` (greedy): hand the continuation the longest rest first,
backtracking to shorter ones. -/
def starGreedy (p : Char → Bool) (k : List Char → Option α) : List Char → Option α
  | [] => k []
  | c :: rest =>
    if p c then palt (starGreedy p k rest) (fun _ => k (c :: rest))
    else k (c :: rest)

/-- Regex `[p]+` (greedy): one mandatory character, then `[p]*`. -/
def plusGreedy (p : Char → Bool) (k : List Char → Option α) (s : List Char) : Option α :=
  match s with
  | [] => none
  | c :: rest => if p c then starGreedy p k rest else none

/-- Regex `(.*?)` under `re.DOTALL` (lazy): offer the shortest capture first,
growing it one character at a time.  The continuation receives the captured
text and the rest of the input. -/
def lazyCapture (k : List Char → List Char → Option α) : List Char → List Char → Option α
  | acc, [] => palt (k acc.reverse []) (fun _ => none)
  | acc, c :: rest => palt (k acc.reverse (c :: rest)) (fun _ => lazyCapture k (c :: acc) rest)

/-- The pattern tail `uestion` of `Q(?:uestion)?`. -/
def uestion : List Char := ['u', 'e', 's', 't', 'i', 'o', 'n']

/-- The pattern tail `nswer` of `A(?:nswer)?`. -/
def nswer : List Char := ['n', 's', 'w', 'e', 'r']

/-- The literal `###` of the second marker pattern. -/
def hashes : List Char := ['#', '#', '#']

/-- The lookahead body `Q(?:uestion)?[\s:]` of pattern 1: does it match at the
head of `s`? -/
def lookQ (s : List Char) : Bool :=
  match s with
  | [] => false
  | c :: rest =>
    isQCi c &&
      ((match rest with
        | d :: _ => isWSColon d
        | [] => false) ||
       (match matchCI uestion rest with
        | some (d :: _) => isWSColon d
        | _ => false))

/-- The full lookahead `(?=Q(?:uestion)?[\s:]|$)` of pattern 1. -/
def lookQorEnd (s : List Char) : Bool :=
  s.isEmpty || lookQ s

/-- The lookahead body `###[\s]*Q` of pattern 2: does it match at the head of
`s`?  (`Q` is not a whitespace character, so taking the maximal `[\s]*` run is
equivalent to trying every run length.) -/
def look2 (s : List Char) : Bool :=
  match matchCI hashes s with
  | some r =>
    match r.dropWhile isWS with
    | c :: _ => isQCi c
    | [] => false
  | none => false

/-- The full lookahead `(?=###[\s]*Q|$)` of pattern 2. -/
def look2orEnd (s : List Char) : Bool :=
  s.isEmpty || look2 s

/-- Continuation of pattern 1 after the second capture: check the final
lookahead and return both captures plus the rest of the input. -/
def p1Cont2 (cap1 cap2 r : List Char) : Option (List Char × List Char × List Char) :=
  if lookQorEnd r then some (cap1, cap2, r) else none

/-- Continuation of pattern 1 after the first capture: the answer marker
`A(?:nswer)?[\s:]+` followed by the lazy answer capture. -/
def p1Cont1 (cap1 r3 : List Char) : Option (List Char × List Char × List Char) :=
  match r3 with
  | [] => none
  | a :: r4 =>
    if isACi a then
      tryOpt nswer (fun r5 => plusGreedy isWSColon (fun r6 => lazyCapture (p1Cont2 cap1) [] r6) r5) r4
    else none

/-- Leftmost match attempt of pattern 1 of `PDFProcessor.parse_structured_qa`,
`Q(?:uestion)?[\s:]+(.*?)A(?:nswer)?[\s:]+(.*?)(?=Q(?:uestion)?[\s:]|$)`,
with `re.DOTALL | re.IGNORECASE`, at the start of `s`.  Returns the two
captures and the rest of the input after the match. -/
def p1MatchAt (s : List Char) : Option (List Char × List Char × List Char) :=
  match s with
  | [] => none
  | c :: rest =>
    if isQCi c then
      tryOpt uestion (fun r1 => plusGreedy isWSColon (fun r2 => lazyCapture p1Cont1 [] r2) r1) rest
    else none

/-- Continuation of pattern 2 after the second capture: final lookahead. -/
def p2Cont2 (cap1 cap2 r : List Char) : Option (List Char × List Char × List Char) :=
  if look2orEnd r then some (cap1, cap2, r) else none

/-- Continuation of pattern 2 after the first capture: the answer marker
`###[\s]*A(?:nswer)?[\s:]*` followed by the lazy answer capture. -/
def p2Cont1 (cap1 r4 : List Char) : Option (List Char × List Char × List Char) :=
  match matchCI hashes r4 with
  | none => none
  | some r5 =>
    starGreedy isWS (fun r6 =>
      match r6 with
      | [] => none
      | a :: rest2 =>
        if isACi a then
          tryOpt nswer (fun r7 => starGreedy isWSColon (fun r8 => lazyCapture (p2Cont2 cap1) [] r8) r7) rest2
        else none) r5

/-- Leftmost match attempt of pattern 2 of `PDFProcessor.parse_structured_qa`,
`###[\s]*Q(?:uestion)?[\s:]*(.*?)###[\s]*A(?:nswer)?[\s:]*(.*?)(?=###[\s]*Q|$)`,
at the start of `s`. -/
def p2MatchAt (s : List Char) : Option (List Char × List Char × List Char) :=
  match matchCI hashes s with
  | none => none
  | some r0 =>
    starGreedy isWS (fun r1 =>
      match r1 with
      | [] => none
      | c :: rest =>
        if isQCi c then
          tryOpt uestion (fun r2 => starGreedy isWSColon (fun r3 => lazyCapture p2Cont1 [] r3) r2) rest
        else none) r0

/-- Python `re.findall` scanning: try the matcher at every position from left
to right; on success, record the captures and resume after the match.  The
fuel always suffices because every successful match of either pattern consumes
at least one character. -/
def findAllFuel (m : List Char → Option (List Char × List Char × List Char)) :
    Nat → List Char → List (List Char × List Char)
  | 0, _ => []
  | f + 1, s =>
    match m s with
    | some (q, a, r) => (q, a) :: findAllFuel m f r
    | none =>
      match s with
      | [] => []
      | _ :: rest => findAllFuel m f rest

/-- `re.findall` of pattern 1 over the whole text. -/
def findAll1 (s : List Char) : List (List Char × List Char) :=
  findAllFuel p1MatchAt (s.length + 1) s

/-- `re.findall` of pattern 2 over the whole text. -/
def findAll2 (s : List Char) : List (List Char × List Char) :=
  findAllFuel p2MatchAt (s.length + 1) s

/-- The list comprehension inside `parse_structured_qa`:
`[(q.strip(), a.strip()) for q, a in matches if q.strip() and a.strip()]`. -/
def extendPairs (ms : List (List Char × List Char)) : List (List Char × List Char) :=
  ms.filterMap (fun qa =>
    if pyStrip qa.1 ≠ [] ∧ pyStrip qa.2 ≠ [] then some (pyStrip qa.1, pyStrip qa.2) else none)

/-- `PDFProcessor.parse_structured_qa`: run both marker patterns in order and,
for each pattern whose raw match list is non-empty, extend the result with its
stripped, non-empty pairs. -/
def parse_structured_qa (s : List Char) : List (List Char × List Char) :=
  (if (findAll1 s).isEmpty then [] else extendPairs (findAll1 s)) ++
    (if (findAll2 s).isEmpty then [] else extendPairs (findAll2 s))

/-- Characters free of any marker reading: not `q`/`Q`, not `a`/`A`, not a
colon, not a newline and not `#` (so that neither pattern can anchor inside
the payload). -/
def cleanChar (c : Char) : Bool :=
  !isQCi c && !isACi c && !ciEq c ':' && !ciEq c '\n' && !ciEq c '#'

/-- The interrogative words checked by `PDFProcessor.is_question`. -/
def questionWords : List (List Char) :=
  ["what", "why", "how", "when", "where", "which", "who", "whose", "whom"].map String.toList

/-- The auxiliary verbs checked by `PDFProcessor.is_question`. -/
def auxVerbs : List (List Char) :=
  ["is", "are", "was", "were", "do", "does", "did", "have", "has", "had",
   "can", "could", "should", "would", "will"].map String.toList

/-- Modelled from the spec: the external spaCy tokenizer behind
`doc[0].text.lower()` is not part of the repository; spec section 4.2 reads
the first token as the first whitespace-delimited token.  An empty token
sequence (empty or whitespace-only sentence) yields `none`: indexing `doc[0]`
into an empty spaCy doc raises `IndexError`. -/
def firstTokenLower (s : List Char) : Option (List Char) :=
  match (s.dropWhile isWS).takeWhile (fun c => !isWS c) with
  | [] => none
  | w => some (w.map Char.toLower)

/-- `PDFProcessor.is_question`.  `none` models the `IndexError` raised by
`doc[0]` when the sentence has no token; the `?` test happens before that
indexing, exactly as in the source. -/
def is_question (text : List Char) : Option Bool :=
  if '?' ∈ text then some true
  else
    match firstTokenLower text with
    | none => none
    | some w =>
      if questionWords.contains w then some true
      else if auxVerbs.contains w then some true
      else some false

/-- The loop of `PDFProcessor.parse_unstructured_text` over the stripped
sentence list: for every sentence but the last, if it is a question, pair it
with the sentence that follows.  `none` propagates a classifier exception. -/
def puLoop : List (List Char) → Option (List (List Char × List Char))
  | [] => some []
  | [_] => some []
  | s :: t :: rest =>
    match is_question s with
    | none => none
    | some b =>
      match puLoop (t :: rest) with
      | none => none
      | some tail => some (if b then (s, t) :: tail else tail)

/-- `PDFProcessor.parse_unstructured_text`, parametrised by the sentence texts
produced by the external spaCy sentence splitter; the source strips each
sentence before the loop. -/
def parse_unstructured_text (sents : List (List Char)) : Option (List (List Char × List Char)) :=
  puLoop (sents.map pyStrip)

/-- `PDFProcessor.parse_content`: structured extraction first, unstructured
fallback only when it found nothing.  `sents` is the external sentence
splitter's output for `text`. -/
def parse_content (text : List Char) (sents : List (List Char)) :
    Option (List (List Char × List Char)) :=
  if (parse_structured_qa text).isEmpty then parse_unstructured_text sents
  else some (parse_structured_qa text)

/-- The unstructured pairing rule as the spec states it: for every sentence
index `i` except the last, if sentence `i` is classified as a question, emit
the pair of sentence `i` and sentence `i + 1`, in index order. -/
def unstructuredSpecPairs (ss : List (List Char)) : List (List Char × List Char) :=
  (List.range (ss.length - 1)).filterMap (fun i =>
    if is_question (ss.getD i []) = some true then some (ss.getD i [], ss.getD (i + 1) [])
    else none)

/-- Truthiness of a Python optional string: `None` and `""` are falsy. -/
def strTruthy : Option (List Char) → Bool
  | none => false
  | some s => !s.isEmpty

/-- The marker `Q:` of `LLMProcessor.process_text`. -/
def qMark : List Char := ['Q', ':']

/-- The marker `A:` of `LLMProcessor.process_text`. -/
def aMark : List Char := ['A', ':']

/-- Loop state of the line parser in `LLMProcessor.process_text`:
`current_question`, `current_answer` and the `qa_pairs` emitted so far.
`current_answer` starts as the empty list, exactly as in the source (it is
never `None`, so the source's `elif current_answer is not None` test is
always true). -/
structure PTState where
  q : Option (List Char)
  ans : List (List Char)
  out : List (List Char × List Char)

/-- The flush in `process_text`: append `(current_question, joined answer)`
when `current_question` is truthy and `current_answer` is a non-empty list. -/
def flushPT (st : PTState) : List (List Char × List Char) :=
  if strTruthy st.q && !st.ans.isEmpty then
    st.out ++ [(st.q.getD [], pyStrip (joinLines st.ans))]
  else st.out

/-- One iteration of the line loop of `LLMProcessor.process_text`. -/
def ptLine (st : PTState) (raw : List Char) : PTState :=
  let line := pyStrip raw
  if line.isEmpty then st
  else if qMark.isPrefixOf line then
    { q := some (pyStrip (line.drop 2)), ans := [], out := flushPT st }
  else if aMark.isPrefixOf line then
    { st with ans := [pyStrip (line.drop 2)] }
  else
    { st with ans := st.ans ++ [line] }

/-- `LLMProcessor.process_text`, parametrised by the `(success, response)`
result of the external completion call.  The whole body is wrapped in
`try/except` in the source, so the model is a total function. -/
def process_text (success : Bool) (response : List Char) : List (List Char × List Char) :=
  if success then flushPT ((splitNl response).foldl ptLine ⟨none, [], []⟩)
  else []

/-- The marker `Text:` of `LLMProcessor.create_cloze_deletions`. -/
def textMark : List Char := ['T', 'e', 'x', 't', ':']

/-- The marker `Extra:` of `LLMProcessor.create_cloze_deletions`. -/
def extraMark : List Char := ['E', 'x', 't', 'r', 'a', ':']

/-- Loop state of the line parser in `create_cloze_deletions`:
`current_text`, `current_extra` and the `cloze_items` emitted so far. -/
structure CZState where
  t : Option (List Char)
  ex : List (List Char)
  out : List (List Char × List Char)

/-- The flush in `create_cloze_deletions`. -/
def flushCZ (st : CZState) : List (List Char × List Char) :=
  if strTruthy st.t && !st.ex.isEmpty then
    st.out ++ [(st.t.getD [], pyStrip (joinLines st.ex))]
  else st.out

/-- One iteration of the line loop of `create_cloze_deletions`. -/
def czLine (st : CZState) (raw : List Char) : CZState :=
  let line := pyStrip raw
  if line.isEmpty then st
  else if textMark.isPrefixOf line then
    { t := some (pyStrip (line.drop 5)), ex := [], out := flushCZ st }
  else if extraMark.isPrefixOf line then
    { st with ex := [pyStrip (line.drop 6)] }
  else
    { st with ex := st.ex ++ [line] }

/-- The substring `{c` tested by the cloze fixer. -/
def sOpenC : List Char := ['\x7b', 'c']

/-- The substring `::` tested by the cloze fixer and validator. -/
def sDColon : List Char := [':', ':']

/-- The substring `}` tested by the cloze fixer. -/
def sCloseB : List Char := ['\x7d']

/-- The substring `{{` whose absence triggers the cloze fixer. -/
def sOpen2 : List Char := ['\x7b', '\x7b']

/-- The substring `{{c` required by the cloze validator (also the replacement
for `{c`). -/
def sOpen2C : List Char := ['\x7b', '\x7b', 'c']

/-- The substring `}}` required by the cloze validator (also the replacement
for `}`). -/
def sClose2 : List Char := ['\x7d', '\x7d']

/-- The fixer guard in `create_cloze_deletions`:
`'{c' in text and '::' in text and '}' in text and '{{' not in text`. -/
def fixNeeded (t : List Char) : Bool :=
  pyIn sOpenC t && pyIn sDColon t && pyIn sCloseB t && !pyIn sOpen2 t

/-- The fixer body: `text.replace('{c', '{{c').replace('}', '}}')`. -/
def fixBraces (t : List Char) : List Char :=
  pyReplace sCloseB sClose2 (pyReplace sOpenC sOpen2C t)

/-- The validator test in `create_cloze_deletions`:
`'{{c' in fixed_text and '::' in fixed_text and '}}' in fixed_text`. -/
def clozeOk (t : List Char) : Bool :=
  pyIn sOpen2C t && pyIn sDColon t && pyIn sClose2 t

/-- The validation loop at the end of `create_cloze_deletions`: fix single
braces when the guard holds, then keep the record only if the (possibly
rewritten) text passes the validator test. -/
def clozeValidate : List (List Char × List Char) → List (List Char × List Char)
  | [] => []
  | (t, e) :: rest =>
    if clozeOk (if fixNeeded t then fixBraces t else t) then
      (if fixNeeded t then fixBraces t else t, e) :: clozeValidate rest
    else clozeValidate rest

/-- `LLMProcessor.create_cloze_deletions`, parametrised by the
`(success, response)` result of the external completion call. -/
def create_cloze_deletions (text : List Char) (success : Bool) (response : List Char) :
    List (List Char × List Char) :=
  if (pyStrip text).isEmpty then []
  else if !success then []
  else if (pyStrip response).isEmpty then []
  else
    let items := flushCZ ((splitNl response).foldl czLine ⟨none, [], []⟩)
    if items.isEmpty then [] else clozeValidate items

/-- The cloze validation step in the spec's words (section 4.7): rewrite when
the single-brace guard holds, then accept exactly when the possibly rewritten
text contains the three double-brace markers. -/
def clozeStepSpec (p : List Char × List Char) : Option (List Char × List Char) :=
  let t2 := if pyIn sOpenC p.1 && pyIn sDColon p.1 && pyIn sCloseB p.1 && !pyIn sOpen2 p.1 then
    pyReplace sCloseB sClose2 (pyReplace sOpenC sOpen2C p.1) else p.1
  if pyIn sOpen2C t2 && pyIn sDColon t2 && pyIn sClose2 t2 then some (t2, p.2) else none

/-- The whole validator in the spec's words: the per-record step applied in
order, discarded records dropped. -/
def clozeValidatorSpec (items : List (List Char × List Char)) : List (List Char × List Char) :=
  items.filterMap clozeStepSpec

/-! ### Helper lemmas about stripping -/

theorem length_dropWhile_le (p : Char → Bool) (l : List Char) :
    (l.dropWhile p).length ≤ l.length := by
  induction l with
  | nil => simp
  | cons c t ih =>
    by_cases h : p c
    · simp only [List.dropWhile_cons, h, if_true]
      exact Nat.le_succ_of_le ih
    · simp [List.dropWhile_cons, h]

theorem dropWhile_eq_self_of_length (p : Char → Bool) (l : List Char)
    (h : (l.dropWhile p).length = l.length) : l.dropWhile p = l := by
  cases l with
  | nil => simp
  | cons c t =>
    by_cases hc : p c
    · exfalso
      have h1 : ((c :: t).dropWhile p).length ≤ t.length := by
        simpa [List.dropWhile_cons, hc] using length_dropWhile_le p t
      rw [h] at h1
      simp only [List.length_cons] at h1
      omega
    · simp [List.dropWhile_cons, hc]

theorem strip_dropWhile {s : List Char} (h : pyStrip s = s) : s.dropWhile isWS = s := by
  apply dropWhile_eq_self_of_length
  have h1 : (s.dropWhile isWS).length ≤ s.length := length_dropWhile_le isWS s
  have h2 : (pyStrip s).length ≤ (s.dropWhile isWS).length := by
    unfold pyStrip
    calc (((s.dropWhile isWS).reverse.dropWhile isWS).reverse).length
        = ((s.dropWhile isWS).reverse.dropWhile isWS).length := List.length_reverse _
      _ ≤ (s.dropWhile isWS).reverse.length := length_dropWhile_le isWS _
      _ = (s.dropWhile isWS).length := List.length_reverse _
  rw [h] at h2
  omega

theorem head_not_ws_of_strip {c : Char} {t : List Char} (h : pyStrip (c :: t) = c :: t) :
    isWS c = false := by
  have hd := strip_dropWhile h
  by_contra hc
  rw [Bool.not_eq_false] at hc
  have h1 : ((c :: t).dropWhile isWS).length ≤ t.length := by
    simpa [List.dropWhile_cons, hc] using length_dropWhile_le isWS t
  rw [hd] at h1
  simp only [List.length_cons] at h1
  omega


theorem pyStrip_eq_rstrip (s : List Char) : pyStrip s = rstripWS (s.dropWhile isWS) := rfl

theorem dropWhile_dropWhile (p : Char → Bool) (l : List Char) :
    (l.dropWhile p).dropWhile p = l.dropWhile p := by
  induction l with
  | nil => simp
  | cons c t ih =>
    by_cases h : p c
    · simpa [List.dropWhile_cons, h] using ih
    · simp [List.dropWhile_cons, h]

theorem rstripWS_idem (l : List Char) : rstripWS (rstripWS l) = rstripWS l := by
  unfold rstripWS
  rw [List.reverse_reverse, dropWhile_dropWhile]

theorem rstripWS_prefix (l : List Char) : rstripWS l <+: l := by
  have h : l.reverse.dropWhile isWS <:+ l.reverse := List.dropWhile_suffix isWS
  have h2 := List.reverse_prefix.mpr h
  simpa [rstripWS] using h2

theorem dropWhile_eq_self_of_head {c : Char} {t : List Char} (h : isWS c = false) :
    (c :: t).dropWhile isWS = c :: t := by
  simp [List.dropWhile_cons, h]

theorem pyStrip_idem (s : List Char) : pyStrip (pyStrip s) = pyStrip s := by
  rw [pyStrip_eq_rstrip s, pyStrip_eq_rstrip]
  have hpre : rstripWS (s.dropWhile isWS) <+: s.dropWhile isWS := rstripWS_prefix _
  have hself : (rstripWS (s.dropWhile isWS)).dropWhile isWS = rstripWS (s.dropWhile isWS) := by
    cases hr : rstripWS (s.dropWhile isWS) with
    | nil => simp
    | cons c t =>
      apply dropWhile_eq_self_of_head
      rw [hr] at hpre
      obtain ⟨r, hr2⟩ := hpre
      by_contra hc
      rw [Bool.not_eq_false] at hc
      have : (s.dropWhile isWS).dropWhile isWS ≠ s.dropWhile isWS := by
        rw [← hr2]
        intro heq
        have h1 : ((t ++ r).dropWhile isWS).length ≤ (t ++ r).length :=
          length_dropWhile_le isWS (t ++ r)
        have h2 : (c :: (t ++ r)).dropWhile isWS = (t ++ r).dropWhile isWS := by
          simp [List.dropWhile_cons, hc]
        rw [List.cons_append, h2] at heq
        have h3 : ((t ++ r).dropWhile isWS).length = (c :: (t ++ r)).length := by rw [heq]
        simp only [List.length_cons] at h3
        omega
      exact this (dropWhile_dropWhile isWS s)
  rw [hself, rstripWS_idem]

theorem pyStrip_append_nl {x : List Char} (hx : pyStrip x = x) (hne : x ≠ []) :
    pyStrip (x ++ ['\n']) = x := by
  obtain ⟨c, t, rfl⟩ : ∃ c t, x = c :: t := by
    cases x with
    | nil => exact absurd rfl hne
    | cons c t => exact ⟨c, t, rfl⟩
  have hc : isWS c = false := head_not_ws_of_strip hx
  rw [pyStrip_eq_rstrip, List.cons_append, dropWhile_eq_self_of_head hc]
  have h1 : rstripWS ((c :: t) ++ ['\n']) = rstripWS (c :: t) := by
    unfold rstripWS
    rw [List.reverse_append]
    simp [List.dropWhile_cons, isWS]
  rw [← List.cons_append, h1]
  rw [pyStrip_eq_rstrip, dropWhile_eq_self_of_head hc] at hx
  exact hx

theorem pyStrip_eq_nil_iff (s : List Char) : pyStrip s = [] ↔ ∀ c ∈ s, isWS c = true := by
  constructor
  · intro h c hc
    unfold pyStrip at h
    rw [List.reverse_eq_nil_iff, List.dropWhile_eq_nil_iff] at h
    have hsplit := List.takeWhile_append_dropWhile (p := isWS) (l := s)
    rw [← hsplit] at hc
    rcases List.mem_append.mp hc with h1 | h1
    · exact List.mem_takeWhile_imp h1
    · exact h c (List.mem_reverse.mpr h1)
  · intro h
    unfold pyStrip
    have h1 : s.dropWhile isWS = [] := List.dropWhile_eq_nil_iff.mpr (fun c hc => h c hc)
    rw [h1]
    simp

/-! ### Helper lemmas about the regex combinators -/

theorem palt_some (v : α) (b : Unit → Option α) : palt (some v) b = some v := rfl

theorem palt_none (b : Unit → Option α) : palt (none : Option α) b = b () := rfl

theorem matchCI_cons_ne {p c : Char} (ps s : List Char) (h : ciEq c p = false) :
    matchCI (p :: ps) (c :: s) = none := by
  simp [matchCI, h]

theorem tryOpt_none {pat s : List Char} (k : List Char → Option α)
    (h : matchCI pat s = none) : tryOpt pat k s = k s := by
  simp [tryOpt, h]

theorem starGreedy_cons_pos {p : Char → Bool} {c : Char} (k : List Char → Option α)
    (t : List Char) (h : p c = true) :
    starGreedy p k (c :: t) = palt (starGreedy p k t) (fun _ => k (c :: t)) := by
  simp [starGreedy, h]

theorem starGreedy_cons_neg {p : Char → Bool} {c : Char} (k : List Char → Option α)
    (t : List Char) (h : p c = false) : starGreedy p k (c :: t) = k (c :: t) := by
  simp [starGreedy, h]

theorem matchCI_uestion_ne {c : Char} (h : ciEq c 'u' = false) (s : List Char) :
    matchCI uestion (c :: s) = none := by
  show matchCI ('u' :: ['e', 's', 't', 'i', 'o', 'n']) (c :: s) = none
  exact matchCI_cons_ne _ _ h

theorem matchCI_nswer_ne {c : Char} (h : ciEq c 'n' = false) (s : List Char) :
    matchCI nswer (c :: s) = none := by
  show matchCI ('n' :: ['s', 'w', 'e', 'r']) (c :: s) = none
  exact matchCI_cons_ne _ _ h

theorem matchCI_hashes_ne {c : Char} (h : ciEq c '#' = false) (s : List Char) :
    matchCI hashes (c :: s) = none := by
  show matchCI ('#' :: ['#', '#']) (c :: s) = none
  exact matchCI_cons_ne _ _ h

theorem lookQ_neg {c : Char} (r : List Char) (h : isQCi c = false) : lookQ (c :: r) = false := by
  simp [lookQ, h]

theorem lazyCapture_exact (k : List Char → List Char → Option α) (x t acc : List Char) (v : α)
    (hfail : ∀ u1 u2, x = u1 ++ u2 → u2 ≠ [] → k (acc.reverse ++ u1) (u2 ++ t) = none)
    (hsucc : k (acc.reverse ++ x) t = some v) :
    lazyCapture k acc (x ++ t) = some v := by
  induction x generalizing acc with
  | nil =>
    rw [List.append_nil] at hsucc
    cases t with
    | nil => simp [lazyCapture, hsucc, palt]
    | cons c r => simp [lazyCapture, hsucc, palt]
  | cons c x' ih =>
    rw [List.cons_append]
    have hfirst : k acc.reverse (c :: (x' ++ t)) = none := by
      have := hfail [] (c :: x') rfl (List.cons_ne_nil c x')
      simpa using this
    have step : lazyCapture k acc (c :: (x' ++ t)) =
        lazyCapture k (c :: acc) (x' ++ t) := by
      simp [lazyCapture, hfirst, palt]
    rw [step]
    apply ih
    · intro u1 u2 hsplit hne
      have h2 : (c :: acc).reverse ++ u1 = acc.reverse ++ (c :: u1) := by
        simp
      rw [h2]
      exact hfail (c :: u1) u2 (by rw [hsplit, List.cons_append]) hne
    · have h2 : (c :: acc).reverse ++ x' = acc.reverse ++ (c :: x') := by
        simp
      rw [h2]
      exact hsucc

/-! ### The exact-form behaviour of pattern 1 -/


theorem cleanChar_spec {c : Char} (h : cleanChar c = true) :
    isQCi c = false ∧ isACi c = false ∧ ciEq c ':' = false ∧
      ciEq c '\n' = false ∧ ciEq c '#' = false := by
  simp only [cleanChar, Bool.and_eq_true, Bool.not_eq_true'] at h
  exact ⟨h.1.1.1.1, h.1.1.1.2, h.1.1.2, h.1.2, h.2⟩

theorem ne_of_ciEq_false {c d : Char} (h : ciEq c d = false) : c ≠ d := by
  intro heq
  subst heq
  simp [ciEq] at h

theorem isWSColon_false {c : Char} (h1 : isWS c = false) (h2 : ciEq c ':' = false) :
    isWSColon c = false := by
  have h3 : c ≠ ':' := ne_of_ciEq_false h2
  simp [isWSColon, h1, h3]

theorem p1MatchAt_exact (x y : List Char) (hx : x ≠ []) (hy : y ≠ [])
    (hcx : ∀ c ∈ x, cleanChar c = true) (hcy : ∀ c ∈ y, cleanChar c = true)
    (hsx : pyStrip x = x) (hsy : pyStrip y = y) :
    p1MatchAt ('Q' :: ':' :: ' ' :: (x ++ '\n' :: 'A' :: ':' :: ' ' :: y)) =
      some (x ++ ['\n'], y, []) := by
  obtain ⟨cx, x', rfl⟩ : ∃ c t, x = c :: t := by
    cases x with
    | nil => exact absurd rfl hx
    | cons c t => exact ⟨c, t, rfl⟩
  obtain ⟨cy, y', rfl⟩ : ∃ c t, y = c :: t := by
    cases y with
    | nil => exact absurd rfl hy
    | cons c t => exact ⟨c, t, rfl⟩
  have hxcol : isWSColon cx = false :=
    isWSColon_false (head_not_ws_of_strip hsx) (cleanChar_spec (hcx cx (by simp))).2.2.1
  have hycol : isWSColon cy = false :=
    isWSColon_false (head_not_ws_of_strip hsy) (cleanChar_spec (hcy cy (by simp))).2.2.1
  -- innermost: the answer capture takes the whole of y, then the lookahead
  -- succeeds at end of input
  have h6 : lazyCapture (p1Cont2 ((cx :: x') ++ ['\n'])) [] (cy :: y') =
      some ((cx :: x') ++ ['\n'], cy :: y', []) := by
    have h := lazyCapture_exact (p1Cont2 ((cx :: x') ++ ['\n'])) (cy :: y') [] []
      ((cx :: x') ++ ['\n'], cy :: y', [])
      (by
        intro u1 u2 hsplit hne
        obtain ⟨d, u2', rfl⟩ := List.exists_cons_of_ne_nil hne
        have hd : d ∈ cy :: y' := by rw [hsplit]; simp
        have hq : isQCi d = false := (cleanChar_spec (hcy d hd)).1
        simp [p1Cont2, lookQorEnd, lookQ_neg, hq])
      (by simp [p1Cont2, lookQorEnd])
    simpa using h
  -- the answer marker `A[\s:]+` then the inner chain
  have h4 : p1Cont1 ((cx :: x') ++ ['\n']) ('A' :: ':' :: ' ' :: (cy :: y')) =
      some ((cx :: x') ++ ['\n'], cy :: y', []) := by
    have hA : isACi 'A' = true := by decide
    have hn : matchCI nswer (':' :: ' ' :: (cy :: y')) = none :=
      matchCI_nswer_ne (by decide) _
    simp only [p1Cont1, hA, if_true]
    rw [tryOpt_none _ hn]
    simp only [plusGreedy, show isWSColon ':' = true from by decide, if_true]
    rw [starGreedy_cons_pos _ _ (show isWSColon ' ' = true from by decide)]
    rw [starGreedy_cons_neg _ _ hycol]
    simp only [h6, palt]
  -- the question capture takes x plus the newline before the answer marker
  have h3 : lazyCapture p1Cont1 [] ((cx :: x') ++ ('\n' :: 'A' :: ':' :: ' ' :: (cy :: y'))) =
      some ((cx :: x') ++ ['\n'], cy :: y', []) := by
    have hre : (cx :: x') ++ ('\n' :: 'A' :: ':' :: ' ' :: (cy :: y')) =
        ((cx :: x') ++ ['\n']) ++ ('A' :: ':' :: ' ' :: (cy :: y')) := by
      simp
    rw [hre]
    have h := lazyCapture_exact p1Cont1 ((cx :: x') ++ ['\n'])
      ('A' :: ':' :: ' ' :: (cy :: y')) [] ((cx :: x') ++ ['\n'], cy :: y', [])
      (by
        intro u1 u2 hsplit hne
        obtain ⟨d, u2', rfl⟩ := List.exists_cons_of_ne_nil hne
        have hd : d ∈ (cx :: x') ++ ['\n'] := by rw [hsplit]; simp
        have hdA : isACi d = false := by
          rcases List.mem_append.mp hd with h1 | h1
          · exact (cleanChar_spec (hcx d h1)).2.1
          · simp at h1
            subst h1
            decide
        simp [p1Cont1, hdA])
      (by simpa using h4)
    simpa using h
  -- assemble the full pattern-1 match
  have hu : matchCI uestion (':' :: ' ' :: ((cx :: x') ++ '\n' :: 'A' :: ':' :: ' ' :: (cy :: y'))) = none :=
    matchCI_uestion_ne (by decide) _
  simp only [p1MatchAt, show isQCi 'Q' = true from by decide, if_true]
  rw [tryOpt_none _ hu]
  simp only [plusGreedy, show isWSColon ':' = true from by decide, if_true]
  rw [starGreedy_cons_pos _ _ (show isWSColon ' ' = true from by decide)]
  rw [List.cons_append]
  rw [starGreedy_cons_neg _ _ hxcol]
  rw [← List.cons_append]
  simp only [h3, palt]

theorem findAllFuel_p1_nil (f : Nat) : findAllFuel p1MatchAt f [] = [] := by
  cases f <;> rfl

theorem findAll1_exact (x y : List Char) (hx : x ≠ []) (hy : y ≠ [])
    (hcx : ∀ c ∈ x, cleanChar c = true) (hcy : ∀ c ∈ y, cleanChar c = true)
    (hsx : pyStrip x = x) (hsy : pyStrip y = y) :
    findAll1 ('Q' :: ':' :: ' ' :: (x ++ '\n' :: 'A' :: ':' :: ' ' :: y)) =
      [(x ++ ['\n'], y)] := by
  have hm := p1MatchAt_exact x y hx hy hcx hcy hsx hsy
  unfold findAll1
  simp only [List.length_cons]
  simp only [findAllFuel, hm, findAllFuel_p1_nil]
  simp only [show p1MatchAt [] = none from rfl]

theorem p2MatchAt_none_head {c : Char} (s : List Char) (h : ciEq c '#' = false) :
    p2MatchAt (c :: s) = none := by
  have hm := matchCI_hashes_ne h s
  simp [p2MatchAt, hm]

theorem p2MatchAt_nil : p2MatchAt [] = none := rfl

theorem findAllFuel_p2_none (f : Nat) (s : List Char) (h : ∀ c ∈ s, ciEq c '#' = false) :
    findAllFuel p2MatchAt f s = [] := by
  induction f generalizing s with
  | zero => rfl
  | succ f ih =>
    cases s with
    | nil => rfl
    | cons c rest =>
      have hm : p2MatchAt (c :: rest) = none := p2MatchAt_none_head rest (h c (by simp))
      simp only [findAllFuel, hm]
      exact ih rest (fun d hd => h d (by simp [hd]))

theorem findAll2_exact_nil (x y : List Char)
    (hcx : ∀ c ∈ x, cleanChar c = true) (hcy : ∀ c ∈ y, cleanChar c = true) :
    findAll2 ('Q' :: ':' :: ' ' :: (x ++ '\n' :: 'A' :: ':' :: ' ' :: y)) = [] := by
  apply findAllFuel_p2_none
  intro c hc
  by_cases hmx : c ∈ x
  · exact (cleanChar_spec (hcx c hmx)).2.2.2.2
  by_cases hmy : c ∈ y
  · exact (cleanChar_spec (hcy c hmy)).2.2.2.2
  have hconc : c = 'Q' ∨ c = ':' ∨ c = ' ' ∨ c = '\n' ∨ c = 'A' := by
    simp only [List.mem_cons, List.mem_append] at hc
    tauto
  rcases hconc with rfl | rfl | rfl | rfl | rfl <;> decide

/-! ### Adequacy of the scanning fuel

Every successful match of either pattern consumes at least one character,
so `findAllFuel` gives the same answer for every fuel larger than the input
length: the `length + 1` budget used by `findAll1` and `findAll2` is not a
truncation. -/

theorem matchCI_length : ∀ pat s r : List Char, matchCI pat s = some r →
    r.length + pat.length = s.length
  | [], s, r, h => by
    simp only [matchCI, Option.some_inj] at h
    subst h
    simp
  | p :: ps, [], r, h => by simp [matchCI] at h
  | p :: ps, c :: s, r, h => by
    simp only [matchCI] at h
    split at h
    · have := matchCI_length ps s r h
      simp only [List.length_cons]
      omega
    · exact absurd h (by simp)

theorem palt_eq_some {a : Option α} {b : Unit → Option α} {v : α} (h : palt a b = some v) :
    a = some v ∨ (a = none ∧ b () = some v) := by
  cases a with
  | some w => exact Or.inl h
  | none => exact Or.inr ⟨rfl, h⟩

theorem tryOpt_bound {pat s : List Char} {k : List Char → Option α} {v : α}
    (h : tryOpt pat k s = some v) : ∃ t, t.length ≤ s.length ∧ k t = some v := by
  unfold tryOpt at h
  cases hm : matchCI pat s with
  | none =>
    rw [hm] at h
    exact ⟨s, Nat.le_refl _, h⟩
  | some r =>
    rw [hm] at h
    rcases palt_eq_some h with h1 | ⟨_, h1⟩
    · have := matchCI_length pat s r hm
      exact ⟨r, by omega, h1⟩
    · exact ⟨s, Nat.le_refl _, h1⟩

theorem starGreedy_bound {p : Char → Bool} {k : List Char → Option α} {v : α} :
    ∀ s : List Char, starGreedy p k s = some v → ∃ t, t.length ≤ s.length ∧ k t = some v
  | [], h => ⟨[], Nat.le_refl _, h⟩
  | c :: rest, h => by
    unfold starGreedy at h
    split at h
    · rcases palt_eq_some h with h1 | ⟨_, h1⟩
      · obtain ⟨t, ht, hk⟩ := starGreedy_bound rest h1
        exact ⟨t, by simp only [List.length_cons]; omega, hk⟩
      · exact ⟨c :: rest, Nat.le_refl _, h1⟩
    · exact ⟨c :: rest, Nat.le_refl _, h⟩

theorem plusGreedy_bound {p : Char → Bool} {k : List Char → Option α} {v : α}
    {s : List Char} (h : plusGreedy p k s = some v) :
    ∃ t, t.length < s.length ∧ k t = some v := by
  cases s with
  | nil => exact absurd h (by simp [plusGreedy])
  | cons c rest =>
    simp only [plusGreedy] at h
    split at h
    · obtain ⟨t, ht, hk⟩ := starGreedy_bound rest h
      exact ⟨t, by simp only [List.length_cons]; omega, hk⟩
    · exact absurd h (by simp)

theorem lazyCapture_bound {k : List Char → List Char → Option α} {v : α} :
    ∀ (s acc : List Char), lazyCapture k acc s = some v →
      ∃ cap t, t.length ≤ s.length ∧ k cap t = some v
  | [], acc, h => by
    unfold lazyCapture at h
    rcases palt_eq_some h with h1 | ⟨_, h1⟩
    · exact ⟨acc.reverse, [], Nat.le_refl _, h1⟩
    · exact absurd h1 (by simp)
  | c :: rest, acc, h => by
    unfold lazyCapture at h
    rcases palt_eq_some h with h1 | ⟨_, h1⟩
    · exact ⟨acc.reverse, c :: rest, Nat.le_refl _, h1⟩
    · obtain ⟨cap, t, ht, hk⟩ := lazyCapture_bound rest (c :: acc) h1
      exact ⟨cap, t, by simp only [List.length_cons]; omega, hk⟩

theorem p1Cont2_rest_eq {cap1 cap2 r q a r2 : List Char}
    (h : p1Cont2 cap1 cap2 r = some (q, a, r2)) : r2 = r := by
  unfold p1Cont2 at h
  split at h
  · simp only [Option.some_inj, Prod.mk.injEq] at h
    exact h.2.2.symm
  · exact absurd h (by simp)

theorem p1Cont1_rest_le {cap t3 q a r : List Char}
    (h : p1Cont1 cap t3 = some (q, a, r)) : r.length ≤ t3.length := by
  cases t3 with
  | nil => exact absurd h (by simp [p1Cont1])
  | cons d r4 =>
    simp only [p1Cont1] at h
    split at h
    · obtain ⟨t5, ht5, h5⟩ := tryOpt_bound h
      obtain ⟨t6, ht6, h6⟩ := plusGreedy_bound h5
      obtain ⟨cap2, t7, ht7, h7⟩ := lazyCapture_bound t6 [] h6
      have hr := p1Cont2_rest_eq h7
      subst hr
      simp only [List.length_cons]
      omega
    · exact absurd h (by simp)

theorem p1MatchAt_consumes {s q a r : List Char} (h : p1MatchAt s = some (q, a, r)) :
    r.length < s.length := by
  cases s with
  | nil => exact absurd h (by simp [p1MatchAt])
  | cons c rest =>
    simp only [p1MatchAt] at h
    split at h
    · obtain ⟨t1, ht1, h1⟩ := tryOpt_bound h
      obtain ⟨t2, ht2, h2⟩ := plusGreedy_bound h1
      obtain ⟨cap, t3, ht3, h3⟩ := lazyCapture_bound t2 [] h2
      have h4 := p1Cont1_rest_le h3
      simp only [List.length_cons]
      omega
    · exact absurd h (by simp)

theorem p2Cont2_rest_eq {cap1 cap2 r q a r2 : List Char}
    (h : p2Cont2 cap1 cap2 r = some (q, a, r2)) : r2 = r := by
  unfold p2Cont2 at h
  split at h
  · simp only [Option.some_inj, Prod.mk.injEq] at h
    exact h.2.2.symm
  · exact absurd h (by simp)

theorem p2Cont1_rest_le {cap t q a r : List Char}
    (h : p2Cont1 cap t = some (q, a, r)) : r.length ≤ t.length := by
  unfold p2Cont1 at h
  cases hm : matchCI hashes t with
  | none => rw [hm] at h; exact absurd h (by simp)
  | some r5 =>
    rw [hm] at h
    have hm5 := matchCI_length hashes t r5 hm
    obtain ⟨t6, ht6, h6⟩ := starGreedy_bound r5 h
    cases t6 with
    | nil => exact absurd h6 (by simp)
    | cons d rest2 =>
      dsimp only at h6
      split at h6
      · obtain ⟨t7, ht7, h7⟩ := tryOpt_bound h6
        obtain ⟨t8, ht8, h8⟩ := starGreedy_bound t7 h7
        obtain ⟨cap2, t9, ht9, h9⟩ := lazyCapture_bound t8 [] h8
        have hr := p2Cont2_rest_eq h9
        subst hr
        simp only [List.length_cons] at ht6
        omega
      · exact absurd h6 (by simp)

theorem p2MatchAt_consumes {s q a r : List Char} (h : p2MatchAt s = some (q, a, r)) :
    r.length < s.length := by
  unfold p2MatchAt at h
  cases hm : matchCI hashes s with
  | none => rw [hm] at h; exact absurd h (by simp)
  | some r0 =>
    rw [hm] at h
    have hm0 := matchCI_length hashes s r0 hm
    obtain ⟨t1, ht1, h1⟩ := starGreedy_bound r0 h
    cases t1 with
    | nil => exact absurd h1 (by simp)
    | cons c rest =>
      dsimp only at h1
      split at h1
      · obtain ⟨t2, ht2, h2⟩ := tryOpt_bound h1
        obtain ⟨t3, ht3, h3⟩ := starGreedy_bound t2 h2
        obtain ⟨cap, t4, ht4, h4⟩ := lazyCapture_bound t3 [] h3
        have h5 := p2Cont1_rest_le h4
        simp only [List.length_cons] at ht1
        simp only [hashes, List.length_cons, List.length_nil] at hm0
        omega
      · exact absurd h1 (by simp)

theorem findAllFuel_fuel_free
    (m : List Char → Option (List Char × List Char × List Char))
    (hm : ∀ {s q a r : List Char}, m s = some (q, a, r) → r.length < s.length) :
    ∀ (f1 f2 : Nat) (s : List Char), s.length < f1 → s.length < f2 →
      findAllFuel m f1 s = findAllFuel m f2 s := by
  intro f1
  induction f1 with
  | zero => intro f2 s h1 _; omega
  | succ n1 ih =>
    intro f2 s h1 h2
    cases f2 with
    | zero => omega
    | succ n2 =>
      simp only [findAllFuel]
      cases hms : m s with
      | some v =>
        obtain ⟨q, a, r⟩ := v
        have hr := hm hms
        dsimp only
        rw [ih n2 r (by omega) (by omega)]
      | none =>
        dsimp only
        cases s with
        | nil => rfl
        | cons c rest =>
          simp only [List.length_cons] at h1 h2
          exact ih n2 rest (by omega) (by omega)

theorem findAll1_fuel_adequate (f : Nat) (s : List Char) (hf : s.length < f) :
    findAllFuel p1MatchAt f s = findAll1 s :=
  findAllFuel_fuel_free p1MatchAt (fun h => p1MatchAt_consumes h) f (s.length + 1) s hf
    (Nat.lt_succ_self _)

theorem findAll2_fuel_adequate (f : Nat) (s : List Char) (hf : s.length < f) :
    findAllFuel p2MatchAt f s = findAll2 s :=
  findAllFuel_fuel_free p2MatchAt (fun h => p2MatchAt_consumes h) f (s.length + 1) s hf
    (Nat.lt_succ_self _)

/-! ### Spec-side characterisations -/


theorem unstructuredSpecPairs_nil : unstructuredSpecPairs [] = [] := rfl

theorem unstructuredSpecPairs_single (s : List Char) : unstructuredSpecPairs [s] = [] := rfl

theorem unstructuredSpecPairs_cons (s t : List Char) (rest : List (List Char)) :
    unstructuredSpecPairs (s :: t :: rest) =
      (if is_question s = some true then [(s, t)] else []) ++
        unstructuredSpecPairs (t :: rest) := by
  unfold unstructuredSpecPairs
  have hlen : (s :: t :: rest).length - 1 = ((t :: rest).length - 1) + 1 := by simp
  have hcongr : List.filterMap ((fun i =>
        if is_question ((s :: t :: rest).getD i []) = some true then
          some ((s :: t :: rest).getD i [], (s :: t :: rest).getD (i + 1) []) else none) ∘
          Nat.succ)
        (List.range ((t :: rest).length - 1)) =
      List.filterMap (fun i =>
        if is_question ((t :: rest).getD i []) = some true then
          some ((t :: rest).getD i [], (t :: rest).getD (i + 1) []) else none)
        (List.range ((t :: rest).length - 1)) :=
    List.filterMap_congr (fun i _ => by simp [Function.comp, List.getD_cons_succ])
  rw [hlen, List.range_succ_eq_map, List.filterMap_cons, List.filterMap_map, hcongr]
  simp only [List.getD_cons_zero, List.getD_cons_succ]
  by_cases hq : is_question s = some true
  · simp [hq]
  · simp [hq]

theorem is_question_isSome_of_stripped {s : List Char} (hne : pyStrip s ≠ []) :
    (is_question (pyStrip s)).isSome = true := by
  by_cases hq : '?' ∈ pyStrip s
  · simp [is_question, hq]
  · obtain ⟨c, t, hct⟩ : ∃ c t, pyStrip s = c :: t := by
      cases h : pyStrip s with
      | nil => exact absurd h hne
      | cons c t => exact ⟨c, t, rfl⟩
    have hidem : pyStrip (c :: t) = c :: t := by rw [← hct, pyStrip_idem]
    have hcws : isWS c = false := head_not_ws_of_strip hidem
    rw [hct] at hq ⊢
    have h1 : firstTokenLower (c :: t) =
        some ((c :: t.takeWhile (fun d => !isWS d)).map Char.toLower) := by
      unfold firstTokenLower
      rw [dropWhile_eq_self_of_head hcws, List.takeWhile_cons]
      simp [hcws]
    unfold is_question
    rw [if_neg hq, h1]
    dsimp only
    split
    · rfl
    · split <;> rfl

theorem puLoop_eq_spec : ∀ ss : List (List Char), (∀ s ∈ ss, (is_question s).isSome = true) →
    puLoop ss = some (unstructuredSpecPairs ss)
  | [], _ => by simp [puLoop, unstructuredSpecPairs_nil]
  | [s], _ => by simp [puLoop, unstructuredSpecPairs_single]
  | s :: t :: rest, h => by
    have hs : (is_question s).isSome = true := h s (by simp)
    obtain ⟨b, hb⟩ := Option.isSome_iff_exists.mp hs
    have ih := puLoop_eq_spec (t :: rest) (fun u hu => h u (by simp [hu]))
    rw [unstructuredSpecPairs_cons]
    simp only [puLoop, hb, ih]
    cases b with
    | true => simp [hb]
    | false => simp [hb]

/-! ### Field invariants of the extractors -/

theorem extendPairs_mem {ms : List (List Char × List Char)} {qa : List Char × List Char}
    (h : qa ∈ extendPairs ms) :
    pyStrip qa.1 = qa.1 ∧ pyStrip qa.2 = qa.2 ∧ qa.1 ≠ [] ∧ qa.2 ≠ [] := by
  unfold extendPairs at h
  obtain ⟨p, _, heq⟩ := List.mem_filterMap.mp h
  split at heq
  case isTrue hcond =>
    injection heq with heq2
    subst heq2
    exact ⟨pyStrip_idem _, pyStrip_idem _, hcond.1, hcond.2⟩
  case isFalse => exact absurd heq (by simp)

theorem parse_structured_qa_mem {s : List Char} {qa : List Char × List Char}
    (h : qa ∈ parse_structured_qa s) :
    pyStrip qa.1 = qa.1 ∧ pyStrip qa.2 = qa.2 ∧ qa.1 ≠ [] ∧ qa.2 ≠ [] := by
  unfold parse_structured_qa at h
  rcases List.mem_append.mp h with h1 | h1
  · split at h1
    · exact absurd h1 (by simp)
    · exact extendPairs_mem h1
  · split at h1
    · exact absurd h1 (by simp)
    · exact extendPairs_mem h1

theorem flushPT_q_ne {st : PTState} (h : ∀ qa ∈ st.out, qa.1 ≠ []) :
    ∀ qa ∈ flushPT st, qa.1 ≠ [] := by
  intro qa hqa
  unfold flushPT at hqa
  split at hqa
  case isTrue hcond =>
    rcases List.mem_append.mp hqa with h1 | h1
    · exact h qa h1
    · simp only [List.mem_cons, List.not_mem_nil, or_false] at h1
      subst h1
      rw [Bool.and_eq_true] at hcond
      cases hq : st.q with
      | none => rw [hq] at hcond; simp [strTruthy] at hcond
      | some qs =>
        rw [hq] at hcond
        simp only [strTruthy, Bool.not_eq_true', List.isEmpty_eq_false] at hcond
        simpa [hq] using hcond.1
  case isFalse => exact h qa hqa

theorem ptLine_q_ne {st : PTState} (raw : List Char) (h : ∀ qa ∈ st.out, qa.1 ≠ []) :
    ∀ qa ∈ (ptLine st raw).out, qa.1 ≠ [] := by
  unfold ptLine
  dsimp only
  split
  · exact h
  split
  · exact flushPT_q_ne h
  split
  · exact h
  · exact h

theorem foldl_ptLine_q_ne (lines : List (List Char)) (st : PTState)
    (h : ∀ qa ∈ st.out, qa.1 ≠ []) :
    ∀ qa ∈ (lines.foldl ptLine st).out, qa.1 ≠ [] := by
  induction lines generalizing st with
  | nil => exact h
  | cons l ls ih => exact ih _ (ptLine_q_ne l h)

theorem process_text_q_ne {success : Bool} {resp : List Char} {qa : List Char × List Char}
    (h : qa ∈ process_text success resp) : qa.1 ≠ [] := by
  unfold process_text at h
  split at h
  · exact flushPT_q_ne (foldl_ptLine_q_ne (splitNl resp) ⟨none, [], []⟩ (by simp)) qa h
  · exact absurd h (by simp)

theorem is_question_true_ne_nil {s : List Char} (h : is_question s = some true) : s ≠ [] := by
  intro hnil
  subst hnil
  exact absurd h (by decide)

theorem puLoop_q_ne : ∀ (ss : List (List Char)) (res : List (List Char × List Char)),
    puLoop ss = some res → ∀ qa ∈ res, qa.1 ≠ []
  | [], res, h => by
    simp only [puLoop, Option.some_inj] at h
    subst h
    simp
  | [s], res, h => by
    simp only [puLoop, Option.some_inj] at h
    subst h
    simp
  | s :: t :: rest, res, h => by
    unfold puLoop at h
    cases hq : is_question s with
    | none => rw [hq] at h; exact absurd h (by simp)
    | some b =>
      rw [hq] at h
      cases hp : puLoop (t :: rest) with
      | none => rw [hp] at h; exact absurd h (by simp)
      | some tail =>
        rw [hp] at h
        simp only [Option.some_inj] at h
        subst h
        intro qa hqa
        cases b with
        | true =>
          rcases List.mem_cons.mp (by simpa using hqa) with h1 | h1
          · subst h1
            exact is_question_true_ne_nil hq
          · exact puLoop_q_ne (t :: rest) tail hp qa h1
        | false =>
          exact puLoop_q_ne (t :: rest) tail hp qa (by simpa using hqa)

theorem clozeValidate_mem : ∀ (items : List (List Char × List Char))
    (p : List Char × List Char), p ∈ clozeValidate items → clozeOk p.1 = true
  | [], p, h => by simp [clozeValidate] at h
  | (t, e) :: rest, p, h => by
    unfold clozeValidate at h
    split at h
    · split at h
      case isTrue hok =>
        rcases List.mem_cons.mp h with h1 | h1
        · subst h1
          exact hok
        · exact clozeValidate_mem rest p h1
      case isFalse => exact clozeValidate_mem rest p h
    · split at h
      case isTrue hok =>
        rcases List.mem_cons.mp h with h1 | h1
        · subst h1
          exact hok
        · exact clozeValidate_mem rest p h1
      case isFalse => exact clozeValidate_mem rest p h

theorem ne_nil_of_clozeOk {t : List Char} (h : clozeOk t = true) : t ≠ [] := by
  intro hnil
  subst hnil
  exact absurd h (by decide)

theorem create_cloze_mem {text resp : List Char} {success : Bool} {p : List Char × List Char}
    (h : p ∈ create_cloze_deletions text success resp) : clozeOk p.1 = true := by
  unfold create_cloze_deletions at h
  split at h
  · exact absurd h (by simp)
  split at h
  · exact absurd h (by simp)
  split at h
  · exact absurd h (by simp)
  dsimp only at h
  split at h
  · exact absurd h (by simp)
  · exact clozeValidate_mem _ p h

/-! ### Provenance of the key-1 field

Both line parsers only ever set the pending key-1 value from a line that
carries the key-1 marker, so every emitted record's key-1 field is the
stripped remainder of a single marker line (for cloze records possibly
brace-fixed afterwards).  The lemmas are stated for an arbitrary predicate
`Q` over the key-1 value and instantiated with an origin predicate. -/

theorem flushPT_q_pred (Q : List Char → Prop) {st : PTState}
    (h1 : ∀ qa ∈ st.out, Q qa.1) (h2 : ∀ v, st.q = some v → Q v) :
    ∀ qa ∈ flushPT st, Q qa.1 := by
  intro qa hqa
  unfold flushPT at hqa
  split at hqa
  case isTrue hcond =>
    rcases List.mem_append.mp hqa with hmem | hmem
    · exact h1 qa hmem
    · simp only [List.mem_cons, List.not_mem_nil, or_false] at hmem
      subst hmem
      rw [Bool.and_eq_true] at hcond
      cases hq : st.q with
      | none => rw [hq] at hcond; simp [strTruthy] at hcond
      | some qs =>
        have hQ : Q qs := h2 qs hq
        simpa [hq] using hQ
  case isFalse => exact h1 qa hqa

theorem ptLine_q_pred (Q : List Char → Prop) {st : PTState} {raw : List Char}
    (h1 : ∀ qa ∈ st.out, Q qa.1) (h2 : ∀ v, st.q = some v → Q v)
    (h3 : qMark.isPrefixOf (pyStrip raw) = true → Q (pyStrip ((pyStrip raw).drop 2))) :
    (∀ qa ∈ (ptLine st raw).out, Q qa.1) ∧
      (∀ v, (ptLine st raw).q = some v → Q v) := by
  unfold ptLine
  dsimp only
  split
  · exact ⟨h1, h2⟩
  split
  · next hq =>
    refine ⟨flushPT_q_pred Q h1 h2, ?_⟩
    intro v hv
    simp only [Option.some_inj] at hv
    subst hv
    exact h3 hq
  split
  · exact ⟨h1, h2⟩
  · exact ⟨h1, h2⟩

theorem foldl_ptLine_q_pred (Q : List Char → Prop) :
    ∀ (lines : List (List Char)) (st : PTState),
      (∀ qa ∈ st.out, Q qa.1) → (∀ v, st.q = some v → Q v) →
      (∀ l ∈ lines, qMark.isPrefixOf (pyStrip l) = true → Q (pyStrip ((pyStrip l).drop 2))) →
      (∀ qa ∈ (lines.foldl ptLine st).out, Q qa.1) ∧
        (∀ v, (lines.foldl ptLine st).q = some v → Q v)
  | [], _, h1, h2, _ => ⟨h1, h2⟩
  | l :: ls, st, h1, h2, h3 => by
    have hstep := ptLine_q_pred Q h1 h2 (h3 l (by simp))
    exact foldl_ptLine_q_pred Q ls (ptLine st l) hstep.1 hstep.2
      (fun u hu => h3 u (by simp [hu]))

theorem process_text_q_origin {success : Bool} {resp : List Char} {qa : List Char × List Char}
    (h : qa ∈ process_text success resp) :
    ∃ l ∈ splitNl resp, qMark.isPrefixOf (pyStrip l) = true ∧
      qa.1 = pyStrip ((pyStrip l).drop 2) := by
  unfold process_text at h
  split at h
  · have hfold := foldl_ptLine_q_pred
      (fun v => ∃ l ∈ splitNl resp, qMark.isPrefixOf (pyStrip l) = true ∧
        v = pyStrip ((pyStrip l).drop 2))
      (splitNl resp) ⟨none, [], []⟩ (by simp) (fun v hv => Option.noConfusion hv)
      (fun l hl hpre => ⟨l, hl, hpre, rfl⟩)
    exact flushPT_q_pred _ hfold.1 hfold.2 qa h
  · exact absurd h (by simp)

theorem flushCZ_t_pred (Q : List Char → Prop) {st : CZState}
    (h1 : ∀ p ∈ st.out, Q p.1) (h2 : ∀ v, st.t = some v → Q v) :
    ∀ p ∈ flushCZ st, Q p.1 := by
  intro p hp
  unfold flushCZ at hp
  split at hp
  case isTrue hcond =>
    rcases List.mem_append.mp hp with hmem | hmem
    · exact h1 p hmem
    · simp only [List.mem_cons, List.not_mem_nil, or_false] at hmem
      subst hmem
      rw [Bool.and_eq_true] at hcond
      cases ht : st.t with
      | none => rw [ht] at hcond; simp [strTruthy] at hcond
      | some ts =>
        have hQ : Q ts := h2 ts ht
        simpa [ht] using hQ
  case isFalse => exact h1 p hp

theorem czLine_t_pred (Q : List Char → Prop) {st : CZState} {raw : List Char}
    (h1 : ∀ p ∈ st.out, Q p.1) (h2 : ∀ v, st.t = some v → Q v)
    (h3 : textMark.isPrefixOf (pyStrip raw) = true → Q (pyStrip ((pyStrip raw).drop 5))) :
    (∀ p ∈ (czLine st raw).out, Q p.1) ∧
      (∀ v, (czLine st raw).t = some v → Q v) := by
  unfold czLine
  dsimp only
  split
  · exact ⟨h1, h2⟩
  split
  · next ht =>
    refine ⟨flushCZ_t_pred Q h1 h2, ?_⟩
    intro v hv
    simp only [Option.some_inj] at hv
    subst hv
    exact h3 ht
  split
  · exact ⟨h1, h2⟩
  · exact ⟨h1, h2⟩

theorem foldl_czLine_t_pred (Q : List Char → Prop) :
    ∀ (lines : List (List Char)) (st : CZState),
      (∀ p ∈ st.out, Q p.1) → (∀ v, st.t = some v → Q v) →
      (∀ l ∈ lines, textMark.isPrefixOf (pyStrip l) = true → Q (pyStrip ((pyStrip l).drop 5))) →
      (∀ p ∈ (lines.foldl czLine st).out, Q p.1) ∧
        (∀ v, (lines.foldl czLine st).t = some v → Q v)
  | [], _, h1, h2, _ => ⟨h1, h2⟩
  | l :: ls, st, h1, h2, h3 => by
    have hstep := czLine_t_pred Q h1 h2 (h3 l (by simp))
    exact foldl_czLine_t_pred Q ls (czLine st l) hstep.1 hstep.2
      (fun u hu => h3 u (by simp [hu]))

theorem clozeValidate_mem_src : ∀ (items : List (List Char × List Char))
    (p : List Char × List Char), p ∈ clozeValidate items →
    ∃ q ∈ items, p.1 = q.1 ∨ p.1 = fixBraces q.1
  | [], p, h => by simp [clozeValidate] at h
  | (t, e) :: rest, p, h => by
    unfold clozeValidate at h
    split at h
    · split at h
      · rcases List.mem_cons.mp h with h1 | h1
        · subst h1
          exact ⟨(t, e), by simp, Or.inr rfl⟩
        · obtain ⟨q, hq, hor⟩ := clozeValidate_mem_src rest p h1
          exact ⟨q, List.mem_cons_of_mem _ hq, hor⟩
      · obtain ⟨q, hq, hor⟩ := clozeValidate_mem_src rest p h
        exact ⟨q, List.mem_cons_of_mem _ hq, hor⟩
    · split at h
      · rcases List.mem_cons.mp h with h1 | h1
        · subst h1
          exact ⟨(t, e), by simp, Or.inl rfl⟩
        · obtain ⟨q, hq, hor⟩ := clozeValidate_mem_src rest p h1
          exact ⟨q, List.mem_cons_of_mem _ hq, hor⟩
      · obtain ⟨q, hq, hor⟩ := clozeValidate_mem_src rest p h
        exact ⟨q, List.mem_cons_of_mem _ hq, hor⟩

theorem create_cloze_t_origin {text resp : List Char} {success : Bool}
    {p : List Char × List Char} (h : p ∈ create_cloze_deletions text success resp) :
    ∃ l ∈ splitNl resp, textMark.isPrefixOf (pyStrip l) = true ∧
      (p.1 = pyStrip ((pyStrip l).drop 5) ∨
        p.1 = fixBraces (pyStrip ((pyStrip l).drop 5))) := by
  unfold create_cloze_deletions at h
  split at h
  · exact absurd h (by simp)
  split at h
  · exact absurd h (by simp)
  split at h
  · exact absurd h (by simp)
  dsimp only at h
  split at h
  · exact absurd h (by simp)
  · obtain ⟨q, hq, hor⟩ := clozeValidate_mem_src _ p h
    have hfold := foldl_czLine_t_pred
      (fun v => ∃ l ∈ splitNl resp, textMark.isPrefixOf (pyStrip l) = true ∧
        v = pyStrip ((pyStrip l).drop 5))
      (splitNl resp) ⟨none, [], []⟩ (by simp) (fun v hv => Option.noConfusion hv)
      (fun l hl hpre => ⟨l, hl, hpre, rfl⟩)
    obtain ⟨l, hl, hpre, heq⟩ := flushCZ_t_pred _ hfold.1 hfold.2 q hq
    refine ⟨l, hl, hpre, ?_⟩
    rcases hor with h1 | h1
    · exact Or.inl (h1.trans heq)
    · exact Or.inr (by rw [h1, heq])

/-! ### Blank-input behaviour of the line parsers -/

theorem splitNl_ne_nil (s : List Char) : splitNl s ≠ [] := by
  induction s with
  | nil => simp [splitNl]
  | cons c rest ih =>
    by_cases h : c = '\n'
    · simp [splitNl, h]
    · cases hs : splitNl rest with
      | nil => exact absurd hs ih
      | cons l ls => simp [splitNl, h, hs]

theorem splitNl_mem_chars {c : Char} {l s : List Char} (hl : l ∈ splitNl s) (hc : c ∈ l) :
    c ∈ s := by
  induction s generalizing l with
  | nil =>
    simp only [splitNl, List.mem_cons, List.not_mem_nil, or_false] at hl
    subst hl
    simp at hc
  | cons d rest ih =>
    by_cases hd : d = '\n'
    · simp only [splitNl, hd, if_true, List.mem_cons] at hl
      rcases hl with rfl | h1
      · simp at hc
      · exact List.mem_cons_of_mem _ (ih h1 hc)
    · cases hs : splitNl rest with
      | nil => exact absurd hs (splitNl_ne_nil rest)
      | cons l0 ls =>
        simp only [splitNl, hd, if_false, hs, List.mem_cons] at hl
        rcases hl with rfl | h1
        · rcases List.mem_cons.mp hc with rfl | h2
          · simp
          · have hmem : l0 ∈ splitNl rest := by rw [hs]; simp
            exact List.mem_cons_of_mem _ (ih hmem h2)
        · have hmem : l ∈ splitNl rest := by rw [hs]; simp [h1]
          exact List.mem_cons_of_mem _ (ih hmem hc)

theorem foldl_ptLine_blank (lines : List (List Char)) (st : PTState)
    (h : ∀ l ∈ lines, pyStrip l = []) : lines.foldl ptLine st = st := by
  induction lines generalizing st with
  | nil => rfl
  | cons l ls ih =>
    have h1 : pyStrip l = [] := h l (by simp)
    have h2 : ptLine st l = st := by simp [ptLine, h1]
    rw [List.foldl_cons, h2]
    exact ih _ (fun u hu => h u (by simp [hu]))

theorem process_text_blank {resp : List Char} (h : pyStrip resp = []) :
    process_text true resp = [] := by
  have hall : ∀ c ∈ resp, isWS c = true := (pyStrip_eq_nil_iff resp).mp h
  have hlines : ∀ l ∈ splitNl resp, pyStrip l = [] := by
    intro l hl
    exact (pyStrip_eq_nil_iff l).mpr (fun c hc => hall c (splitNl_mem_chars hl hc))
  unfold process_text
  rw [if_pos rfl, foldl_ptLine_blank _ _ hlines]
  rfl

/-! ### Brace containment for the cloze validator -/

theorem isPrefixOf_sOpen2_of_sOpen2C {s : List Char} (h : sOpen2C.isPrefixOf s = true) :
    sOpen2.isPrefixOf s = true := by
  match s with
  | [] => simp [sOpen2C, List.isPrefixOf] at h
  | [a] => simp [sOpen2C, List.isPrefixOf] at h
  | a :: b :: rest =>
    simp only [sOpen2C, sOpen2, List.isPrefixOf, Bool.and_eq_true, and_true] at h ⊢
    exact ⟨h.1, h.2.1⟩

theorem pyIn_sOpen2_of_sOpen2C : ∀ t : List Char, pyIn sOpen2C t = true → pyIn sOpen2 t = true
  | [], h => by simp [pyIn, sOpen2C] at h
  | c :: rest, h => by
    simp only [pyIn, Bool.or_eq_true] at h ⊢
    rcases h with h | h
    · exact Or.inl (isPrefixOf_sOpen2_of_sOpen2C h)
    · exact Or.inr (pyIn_sOpen2_of_sOpen2C rest h)



theorem clozeStepSpec_eq (t e : List Char) :
    clozeStepSpec (t, e) =
      (if clozeOk (if fixNeeded t then fixBraces t else t) then
        some (if fixNeeded t then fixBraces t else t, e) else none) := rfl

theorem clozeValidate_eq_spec : ∀ items : List (List Char × List Char),
    clozeValidate items = clozeValidatorSpec items
  | [] => rfl
  | (t, e) :: rest => by
    have ih := clozeValidate_eq_spec rest
    show (if clozeOk (if fixNeeded t then fixBraces t else t) = true then
        ((if fixNeeded t then fixBraces t else t), e) :: clozeValidate rest
      else clozeValidate rest) = clozeValidatorSpec ((t, e) :: rest)
    unfold clozeValidatorSpec
    rw [List.filterMap_cons, clozeStepSpec_eq]
    by_cases hc : clozeOk (if fixNeeded t then fixBraces t else t) = true
    · rw [if_pos hc, if_pos hc]
      simp only []
      rw [ih]
      rfl
    · rw [if_neg hc, if_neg hc]
      rw [ih]
      rfl

/-! ### Claim theorems -/

/-- C1 (counterexample): on `"### Q: x\n### A: y"` both marker patterns match
and `parse_structured_qa` returns the concatenation of both patterns' pairs,
which differs from each single pattern's contribution — so the returned
sequence is not the pairs of one winning pattern. -/
theorem c1_counterexample :
    parse_structured_qa ("### Q: x\n### A: y".toList) =
      extendPairs (findAll1 ("### Q: x\n### A: y".toList)) ++
        extendPairs (findAll2 ("### Q: x\n### A: y".toList)) ∧
    extendPairs (findAll1 ("### Q: x\n### A: y".toList)) = [("x\n###".toList, "y".toList)] ∧
    extendPairs (findAll2 ("### Q: x\n### A: y".toList)) = [("x".toList, "y".toList)] ∧
    parse_structured_qa ("### Q: x\n### A: y".toList) ≠
      extendPairs (findAll1 ("### Q: x\n### A: y".toList)) ∧
    parse_structured_qa ("### Q: x\n### A: y".toList) ≠
      extendPairs (findAll2 ("### Q: x\n### A: y".toList)) :=
  ⟨by decide, by decide, by decide, by decide, by decide⟩

/-- C1 (amended): `parse_structured_qa` tries its patterns in a fixed order
and concatenates the stripped, non-empty pairs of every pattern, merging
results across patterns rather than stopping at the first successful one. -/
theorem c1_patterns_merge (s : List Char) :
    parse_structured_qa s = extendPairs (findAll1 s) ++ extendPairs (findAll2 s) := by
  unfold parse_structured_qa
  congr 1
  · split
    · next h => rw [List.isEmpty_iff.mp h]; rfl
    · rfl
  · split
    · next h => rw [List.isEmpty_iff.mp h]; rfl
    · rfl

/-- C2 (counterexample): on the completion `"Q: q1\nstray"` the non-blank
line `stray`, which starts with neither marker and arrives before any `A:`,
is emitted as the answer field of the record — it is not dropped. -/
theorem c2_counterexample :
    process_text true ("Q: q1\nstray".toList) = [("q1".toList, "stray".toList)] := by
  decide

/-- C2 (amended): in both record parsers (`Q:`/`A:` in `process_text` and
`Text:`/`Extra:` in `create_cloze_deletions`), a non-blank line starting with
neither marker is appended to the key-2 accumulation even when no key-2
marker has been seen yet for the current record (the accumulator is
initialised to an empty list, never `None`, so the source's `is not None`
guard is always true); a key-2 marker line overwrites — and thereby erases —
whatever the accumulation holds at that point; and the key-1 field of every
emitted record is the stripped remainder of a single input line that carried
the key-1 marker (for cloze records possibly brace-fixed afterwards). -/
theorem c2_record_parser_lines :
    (∀ (st : PTState) (raw : List Char), (pyStrip raw).isEmpty = false →
      qMark.isPrefixOf (pyStrip raw) = false → aMark.isPrefixOf (pyStrip raw) = false →
      ptLine st raw = { st with ans := st.ans ++ [pyStrip raw] }) ∧
    (∀ (st : CZState) (raw : List Char), (pyStrip raw).isEmpty = false →
      textMark.isPrefixOf (pyStrip raw) = false →
      extraMark.isPrefixOf (pyStrip raw) = false →
      czLine st raw = { st with ex := st.ex ++ [pyStrip raw] }) ∧
    (∀ (st : PTState) (raw : List Char), (pyStrip raw).isEmpty = false →
      qMark.isPrefixOf (pyStrip raw) = false → aMark.isPrefixOf (pyStrip raw) = true →
      ptLine st raw = { st with ans := [pyStrip ((pyStrip raw).drop 2)] }) ∧
    (∀ (st : CZState) (raw : List Char), (pyStrip raw).isEmpty = false →
      textMark.isPrefixOf (pyStrip raw) = false →
      extraMark.isPrefixOf (pyStrip raw) = true →
      czLine st raw = { st with ex := [pyStrip ((pyStrip raw).drop 6)] }) ∧
    (∀ (success : Bool) (resp : List Char) (qa : List Char × List Char),
      qa ∈ process_text success resp →
      ∃ l ∈ splitNl resp, qMark.isPrefixOf (pyStrip l) = true ∧
        qa.1 = pyStrip ((pyStrip l).drop 2)) ∧
    (∀ (text : List Char) (success : Bool) (resp : List Char) (p : List Char × List Char),
      p ∈ create_cloze_deletions text success resp →
      ∃ l ∈ splitNl resp, textMark.isPrefixOf (pyStrip l) = true ∧
        (p.1 = pyStrip ((pyStrip l).drop 5) ∨
          p.1 = fixBraces (pyStrip ((pyStrip l).drop 5)))) := by
  refine ⟨?_, ?_, ?_, ?_, ?_, ?_⟩
  · intro st raw h1 h2 h3
    unfold ptLine
    simp [h1, h2, h3]
  · intro st raw h1 h2 h3
    unfold czLine
    simp [h1, h2, h3]
  · intro st raw h1 h2 h3
    unfold ptLine
    simp [h1, h2, h3]
  · intro st raw h1 h2 h3
    unfold czLine
    simp [h1, h2, h3]
  · intro success resp qa h
    exact process_text_q_origin h
  · intro text success resp p h
    exact create_cloze_t_origin h

/-- C2 (witness): the four line transitions at concrete states and lines,
and the key-1 provenance of concretely emitted records. -/
theorem c2_record_parser_lines_witness :
    ((pyStrip ("stray".toList)).isEmpty = false ∧
      qMark.isPrefixOf (pyStrip ("stray".toList)) = false ∧
      aMark.isPrefixOf (pyStrip ("stray".toList)) = false ∧
      ptLine ⟨some ("q1".toList), [], []⟩ ("stray".toList) =
        ⟨some ("q1".toList), ["stray".toList], []⟩) ∧
    czLine ⟨some ("t1".toList), [], []⟩ ("loose".toList) =
      ⟨some ("t1".toList), ["loose".toList], []⟩ ∧
    ptLine ⟨some ("q1".toList), ["junk".toList], []⟩ ("A: a1".toList) =
      ⟨some ("q1".toList), ["a1".toList], []⟩ ∧
    czLine ⟨some ("t1".toList), ["junk".toList], []⟩ ("Extra: e1".toList) =
      ⟨some ("t1".toList), ["e1".toList], []⟩ ∧
    (∃ l ∈ splitNl ("Q: q1\nstray".toList), qMark.isPrefixOf (pyStrip l) = true ∧
      "q1".toList = pyStrip ((pyStrip l).drop 2)) ∧
    (∃ l ∈ splitNl ("Text: \x7b\x7bc1::a\x7d\x7d\nExtra: b".toList),
      textMark.isPrefixOf (pyStrip l) = true ∧
      ("\x7b\x7bc1::a\x7d\x7d".toList = pyStrip ((pyStrip l).drop 5) ∨
        "\x7b\x7bc1::a\x7d\x7d".toList = fixBraces (pyStrip ((pyStrip l).drop 5)))) :=
  ⟨⟨by decide, by decide, by decide,
    c2_record_parser_lines.1 ⟨some ("q1".toList), [], []⟩ ("stray".toList)
      (by decide) (by decide) (by decide)⟩,
   c2_record_parser_lines.2.1 ⟨some ("t1".toList), [], []⟩ ("loose".toList)
     (by decide) (by decide) (by decide),
   c2_record_parser_lines.2.2.1 ⟨some ("q1".toList), ["junk".toList], []⟩ ("A: a1".toList)
     (by decide) (by decide) (by decide),
   c2_record_parser_lines.2.2.2.1 ⟨some ("t1".toList), ["junk".toList], []⟩ ("Extra: e1".toList)
     (by decide) (by decide) (by decide),
   c2_record_parser_lines.2.2.2.2.1 true ("Q: q1\nstray".toList)
     ("q1".toList, "stray".toList) (by decide),
   c2_record_parser_lines.2.2.2.2.2 ("x".toList) true
     ("Text: \x7b\x7bc1::a\x7d\x7d\nExtra: b".toList)
     ("\x7b\x7bc1::a\x7d\x7d".toList, "b".toList) (by decide)⟩

/-- C3 (counterexample): the text `"Q: is a dog\nA: yes"` contains
`"Q: <x>\nA: <y>"` with `x = "is a dog"` and `y = "yes"`, both non-empty and
single-line, yet the extractor anchors the answer marker on the `a` of
`"a dog"` and returns `("is", "dog\nA: yes")`; the pair `(x, y)` is absent. -/
theorem c3_counterexample :
    parse_structured_qa ("Q: is a dog\nA: yes".toList) =
      [("is".toList, "dog\nA: yes".toList)] ∧
    ("is a dog".toList, "yes".toList) ∉ parse_structured_qa ("Q: is a dog\nA: yes".toList) :=
  ⟨by decide, by decide⟩

/-- C3 (amended): for text that is exactly `"Q: <x>\nA: <y>"` where `x` and
`y` are non-empty, already-trimmed, single-line strings containing no
marker-like character (`q`/`Q`/`a`/`A`, colon, newline or `#`),
`parse_structured_qa` returns exactly `[(x, y)]`. -/
theorem c3_exact_form (x y : List Char) (hx : x ≠ []) (hy : y ≠ [])
    (hcx : ∀ c ∈ x, cleanChar c = true) (hcy : ∀ c ∈ y, cleanChar c = true)
    (hsx : pyStrip x = x) (hsy : pyStrip y = y) :
    parse_structured_qa ('Q' :: ':' :: ' ' :: (x ++ '\n' :: 'A' :: ':' :: ' ' :: y)) =
      [(x, y)] := by
  have h1 := findAll1_exact x y hx hy hcx hcy hsx hsy
  have h2 := findAll2_exact_nil x y hcx hcy
  unfold parse_structured_qa
  rw [h1, h2]
  simp [extendPairs, pyStrip_append_nl hsx hx, hsy, hx, hy]

/-- C3 (witness): the amended statement at `x = "foo"`, `y = "zip"`. -/
theorem c3_exact_form_witness :
    "foo".toList ≠ [] ∧ "zip".toList ≠ [] ∧
    parse_structured_qa ("Q: foo\nA: zip".toList) = [("foo".toList, "zip".toList)] :=
  ⟨by decide, by decide,
    c3_exact_form ("foo".toList) ("zip".toList) (by decide) (by decide)
      (by decide) (by decide) (by decide) (by decide)⟩

/-- C4: `is_question` applied to the empty sentence does not return `false`
— it raises: the `?` test fails, the spaCy doc of `""` has no token, and the
subsequent `doc[0]` raises `IndexError`, modelled here as `none`. -/
theorem c4_is_question_empty_raises : is_question [] = none := rfl

/-- C5 (counterexample): `process_text` on the completion `"Q: q\nA:"` emits
the pair `("q", "")` whose answer field is empty after trimming. -/
theorem c5_counterexample : process_text true ("Q: q\nA:".toList) = [("q".toList, [])] := by
  decide

/-- C5 (amended): every pair of `parse_structured_qa` has both fields trimmed
and non-empty; the question field of every `process_text` record, of every
unstructured pair and the text field of every cloze item are non-empty; but
answer-side fields may be empty (see the counterexample). -/
theorem c5_nonempty_fields :
    (∀ (s : List Char) (qa : List Char × List Char), qa ∈ parse_structured_qa s →
      pyStrip qa.1 = qa.1 ∧ pyStrip qa.2 = qa.2 ∧ qa.1 ≠ [] ∧ qa.2 ≠ []) ∧
    (∀ (success : Bool) (resp : List Char) (qa : List Char × List Char),
      qa ∈ process_text success resp → qa.1 ≠ []) ∧
    (∀ (ss : List (List Char)) (res : List (List Char × List Char)),
      parse_unstructured_text ss = some res → ∀ qa ∈ res, qa.1 ≠ []) ∧
    (∀ (text : List Char) (success : Bool) (resp : List Char) (p : List Char × List Char),
      p ∈ create_cloze_deletions text success resp → p.1 ≠ []) :=
  ⟨fun _ _ h => parse_structured_qa_mem h,
   fun _ _ _ h => process_text_q_ne h,
   fun ss res h => puLoop_q_ne (ss.map pyStrip) res h,
   fun _ _ _ _ h => ne_nil_of_clozeOk (create_cloze_mem h)⟩

/-- C5 (witness): the amended statement at concrete inputs for all four
extractors. -/
theorem c5_nonempty_fields_witness :
    (("q".toList, "a".toList) ∈ parse_structured_qa ("Q: q\nA: a".toList) ∧
      "q".toList ≠ [] ∧ "a".toList ≠ []) ∧
    (("q1".toList, "a1".toList) ∈ process_text true ("Q: q1\nA: a1".toList) ∧
      "q1".toList ≠ []) ∧
    (parse_unstructured_text ["What is it?".toList, "An item.".toList] =
      some [("What is it?".toList, "An item.".toList)] ∧ "What is it?".toList ≠ []) ∧
    (("\x7b\x7bc1::a\x7d\x7d".toList, "b".toList) ∈
      create_cloze_deletions ("x".toList) true
        ("Text: \x7b\x7bc1::a\x7d\x7d\nExtra: b".toList) ∧
      "\x7b\x7bc1::a\x7d\x7d".toList ≠ []) :=
  ⟨⟨by decide, (c5_nonempty_fields.1 ("Q: q\nA: a".toList) ("q".toList, "a".toList)
      (by decide)).2.2.1,
    (c5_nonempty_fields.1 ("Q: q\nA: a".toList) ("q".toList, "a".toList) (by decide)).2.2.2⟩,
   ⟨by decide, c5_nonempty_fields.2.1 true ("Q: q1\nA: a1".toList)
      ("q1".toList, "a1".toList) (by decide)⟩,
   ⟨by decide, c5_nonempty_fields.2.2.1 ["What is it?".toList, "An item.".toList]
      [("What is it?".toList, "An item.".toList)] (by decide)
      ("What is it?".toList, "An item.".toList) (by decide)⟩,
   ⟨by decide, c5_nonempty_fields.2.2.2 ("x".toList) true
      ("Text: \x7b\x7bc1::a\x7d\x7d\nExtra: b".toList)
      ("\x7b\x7bc1::a\x7d\x7d".toList, "b".toList) (by decide)⟩⟩

/-- C6 (counterexample): `"the q is a b"` contains none of the markers `Q:`,
`A:`, `Question:`, `Answer:`, yet the structured extractor returns a pair
(its patterns accept any `q`/`a` followed by whitespace), so the fallback is
not taken. -/
theorem c6_counterexample :
    pyIn ("Q:".toList) ("the q is a b".toList) = false ∧
    pyIn ("A:".toList) ("the q is a b".toList) = false ∧
    pyIn ("Question:".toList) ("the q is a b".toList) = false ∧
    pyIn ("Answer:".toList) ("the q is a b".toList) = false ∧
    parse_structured_qa ("the q is a b".toList) = [("is".toList, "b".toList)] :=
  ⟨by decide, by decide, by decide, by decide, by decide⟩

/-- C6 (amended): `parse_content` returns the structured extractor's result
unchanged exactly when it is non-empty and otherwise the unstructured
inferer's result; absence of explicit markers does not guarantee the
structured extractor is empty. -/
theorem c6_dispatch (text : List Char) (sents : List (List Char)) :
    parse_content text sents =
      if parse_structured_qa text = [] then parse_unstructured_text sents
      else some (parse_structured_qa text) := by
  by_cases h : parse_structured_qa text = []
  · simp [parse_content, h]
  · simp [parse_content, h]

/-- C7: the validation loop of `create_cloze_deletions` coincides with the
spec's description: rewrite `{c` to `{{c` and `}` to `}}` exactly when the
text contains `{c`, `::` and `}` but not `{{`, then keep the record if and
only if the possibly rewritten text contains `{{c`, `::` and `}}`. -/
theorem c7_validator_eq_spec (items : List (List Char × List Char)) :
    clozeValidate items = clozeValidatorSpec items :=
  clozeValidate_eq_spec items

/-- C8 (counterexample): the core is not raise-free on malformed or empty
content.  On whitespace-only text the structured extractor finds nothing, so
`parse_content` falls back to the unstructured path; a sentence that strips
to empty then makes `is_question` raise `IndexError` (the C4 bug, modelled as
`none`), and nothing shields the caller from it — contradicting the claim's
"the core never raises for malformed or empty content". -/
theorem c8_counterexample :
    parse_structured_qa ("  ".toList) = [] ∧
    parse_unstructured_text ["  ".toList, "x.".toList] = none ∧
    parse_content ("  ".toList) ["  ".toList, "x.".toList] = none :=
  ⟨by decide, by decide, by decide⟩

/-- C8 (amended): failure semantics of the completion parsers: a failed
completion call, a whitespace-only completion, or (for the cloze path) a
whitespace-only input text each yield the empty sequence; these two
functions are total, as the source wraps both bodies in `try/except`.  The
no-raise guarantee is theirs alone — the unstructured extraction path can
still raise (see the counterexample). -/
theorem c8_failure_semantics :
    (∀ r : List Char, process_text false r = []) ∧
    (∀ r : List Char, pyStrip r = [] → process_text true r = []) ∧
    (∀ t r : List Char, create_cloze_deletions t false r = []) ∧
    (∀ (t : List Char) (s : Bool) (r : List Char), pyStrip r = [] →
      create_cloze_deletions t s r = []) ∧
    (∀ (t : List Char) (s : Bool) (r : List Char), pyStrip t = [] →
      create_cloze_deletions t s r = []) := by
  refine ⟨fun r => rfl, fun r h => process_text_blank h, ?_, ?_, ?_⟩
  · intro t r
    unfold create_cloze_deletions
    split
    · rfl
    · rfl
  · intro t s r h
    unfold create_cloze_deletions
    split
    · rfl
    · split
      · rfl
      · rw [if_pos (by simp [h])]
  · intro t s r h
    unfold create_cloze_deletions
    rw [if_pos (by simp [h])]

/-- C8 (witness): the failure semantics at concrete whitespace-only inputs. -/
theorem c8_failure_semantics_witness :
    (pyStrip (" \n ".toList) = [] ∧ process_text true (" \n ".toList) = []) ∧
    (pyStrip (" ".toList) = [] ∧ create_cloze_deletions ("x".toList) true (" ".toList) = []) ∧
    (pyStrip ("\t".toList) = [] ∧ create_cloze_deletions ("\t".toList) true ("y".toList) = []) :=
  ⟨⟨by decide, c8_failure_semantics.2.1 (" \n ".toList) (by decide)⟩,
   ⟨by decide, c8_failure_semantics.2.2.2.1 ("x".toList) true (" ".toList) (by decide)⟩,
   ⟨by decide, c8_failure_semantics.2.2.2.2 ("\t".toList) true ("y".toList) (by decide)⟩⟩

/-- C9: over any sentence list whose stripped sentences are non-empty,
`parse_unstructured_text` emits exactly the pair `(sentence i, sentence i+1)`
for each index `i` other than the last whose sentence is classified as a
question, in index order; a question at the final position yields no pair
(the spec-side `unstructuredSpecPairs` ranges only over the first
`length - 1` indices). -/
theorem c9_pairs (sents : List (List Char))
    (h : ∀ s ∈ sents.map pyStrip, s ≠ []) :
    parse_unstructured_text sents = some (unstructuredSpecPairs (sents.map pyStrip)) := by
  apply puLoop_eq_spec
  intro s hs
  obtain ⟨raw, _, rfl⟩ := List.mem_map.mp hs
  exact is_question_isSome_of_stripped (h _ hs)

/-- C9 (witness): the pairing at a concrete two-sentence input. -/
theorem c9_pairs_witness :
    pyStrip ("What is it?".toList) ≠ [] ∧ pyStrip ("An item.".toList) ≠ [] ∧
    parse_unstructured_text ["What is it?".toList, "An item.".toList] =
      some [("What is it?".toList, "An item.".toList)] :=
  ⟨by decide, by decide, by
    rw [c9_pairs ["What is it?".toList, "An item.".toList] (by decide)]
    decide⟩

/-- C10: the cloze validation step is idempotent on valid records: a record
whose text already contains `{{c`, `::` and `}}` passes through unchanged —
the single-brace fixer does not fire (the text contains `{{`), and the
validator accepts. -/
theorem c10_idempotent (t e : List Char) (h1 : pyIn sOpen2C t = true)
    (h2 : pyIn sDColon t = true) (h3 : pyIn sClose2 t = true) :
    clozeValidate [(t, e)] = [(t, e)] := by
  have h4 : pyIn sOpen2 t = true := pyIn_sOpen2_of_sOpen2C t h1
  have hfix : fixNeeded t = false := by simp [fixNeeded, h4]
  have hok : clozeOk t = true := by simp [clozeOk, h1, h2, h3]
  simp [clozeValidate, hfix, hok]

/-- C10 (witness): idempotence at a concrete valid cloze record. -/
theorem c10_idempotent_witness :
    pyIn sOpen2C ("\x7b\x7bc1::x\x7d\x7d".toList) = true ∧
    pyIn sDColon ("\x7b\x7bc1::x\x7d\x7d".toList) = true ∧
    pyIn sClose2 ("\x7b\x7bc1::x\x7d\x7d".toList) = true ∧
    clozeValidate [("\x7b\x7bc1::x\x7d\x7d".toList, "e".toList)] =
      [("\x7b\x7bc1::x\x7d\x7d".toList, "e".toList)] :=
  ⟨by decide, by decide, by decide,
    c10_idempotent ("\x7b\x7bc1::x\x7d\x7d".toList) ("e".toList)
      (by decide) (by decide) (by decide)⟩


/-! ### Concrete evaluations of the model

These theorems pin the model's behaviour on the spec's own test vectors
(section 8) and on a few representative inputs, all checked by kernel
evaluation. -/

/-- The extractor on a plain two-marker text. -/
theorem eval_structured_basic :
    parse_structured_qa ("Q: foo\nA: bar".toList) = [("foo".toList, "bar".toList)] := by
  decide

/-- Marker-free text yields no structured pair. -/
theorem eval_structured_none :
    parse_structured_qa ("no markers here at".toList) = [] := by
  decide

/-- The classifier on the spec's three test sentences; the empty sentence is
covered by the C4 theorem. -/
theorem eval_is_question_vectors :
    is_question ("What is Python?".toList) = some true ∧
    is_question ("Python is great.".toList) = some false ∧
    is_question ("is this".toList) = some true := by
  refine ⟨by decide, by decide, by decide⟩

/-- The record parser on the spec's four-line vector
`"Q: A\nA: B\nQ: C\nA: D"`. -/
theorem eval_process_text_two_records :
    process_text true ("Q: A\nA: B\nQ: C\nA: D".toList) =
      [("A".toList, "B".toList), ("C".toList, "D".toList)] := by
  decide

/-- A continuation line after `A:` joins the answer with a newline. -/
theorem eval_process_text_continuation :
    process_text true ("Q: q\nA: x\ncont".toList) = [("q".toList, "x\ncont".toList)] := by
  decide

/-- The cloze fixer repairs the spec's single-brace vector. -/
theorem eval_cloze_fix_vector :
    create_cloze_deletions ("x".toList) true
      ("Text: \x7bc1::Python\x7d was made.\nExtra: e".toList) =
      [("\x7b\x7bc1::Python\x7d\x7d was made.".toList, "e".toList)] := by
  decide

/-- A marker-free cloze candidate is discarded. -/
theorem eval_cloze_discard :
    create_cloze_deletions ("x".toList) true
      ("Text: no markers here\nExtra: e".toList) = [] := by
  decide
